import Mathlib

/-!
Verification of the RC4+ tabu-search state-recovery engine
(`src/tabu_logic.py` of the rc4plus repository).

The Python source is embedded shallowly:

* the S-box handed to the keystream engine is a total map `Nat → Nat`
  (numpy array indexing becomes function application, the simultaneous
  numpy swap `S[i], S[j] = S[j], S[i]` becomes a pointwise redefinition);
* every numpy array access performed by the engine is modelled by the
  bounds-checked `aget`, so an out-of-range index — which raises
  `IndexError` in Python — surfaces as `Option.none`;
* Python's arbitrary-precision integers become `Nat` (all values in the
  engine are non-negative), except the `length` argument, which the
  caller may pass negative and which therefore stays an `Int`
  (`np.zeros(length)` raises for a negative length before the loop runs);
* the float expression `S[t] * (256.0 / N)` is embedded as
  `S t * (256 / N)` over `Nat`: for the validated sizes N ∈ {64, 128, 256}
  the scale factor 256/N is the exact power of two 4, 2 or 1, every
  product is an integer below 2^10, and float64 arithmetic on such values
  is exact, so `int(...)` truncation equals the integer value itself;
* the tabu cracker's random draws (`np.random.shuffle`,
  `np.random.choice`) are modelled by making the drawn permutation and
  the drawn list of candidate swaps explicit inputs of the constructor
  and of `step`.
-/

namespace RC4Plus

/-- A running S-box of the keystream engine together with the two PRGA
indices, as maintained by `rc4_plus_prga` across output bytes. -/
structure PrgaState where
  S : Nat → Nat
  i : Nat
  j : Nat

/-- Bounds-checked numpy array access: `S_work[k]` for an S-box of size `N`
returns the stored value for `k < N` and raises `IndexError` (here: `none`)
otherwise. -/
def aget (N : Nat) (S : Nat → Nat) (k : Nat) : Option Nat :=
  if k < N then some (S k) else none

/-- The simultaneous numpy swap `S_work[i], S_work[j] = S_work[j], S_work[i]`:
both right-hand values are read before either cell is written. -/
def swapFn (S : Nat → Nat) (i j : Nat) : Nat → Nat :=
  fun k => if k = i then S j else if k = j then S i else S k

/-- `n_bits = int(np.ceil(np.log2(N)))` of the source, written as a
fuel-bounded structural recursion so that the kernel can evaluate it:
`ceil(log2 m) = 1 + ceil(log2 (ceil(m / 2)))` for `m ≥ 2`.  For the powers
of two accepted by the engine the numpy float computation is exact and
agrees with this integer recursion (`nBits 64 = 6`, `nBits 128 = 7`,
`nBits 256 = 8`). -/
def clogAux : Nat → Nat → Nat
  | 0, _ => 0
  | fuel + 1, m => if m ≤ 1 then 0 else clogAux fuel ((m + 1) / 2) + 1

/-- Bit width of the S-box size, see `clogAux`. -/
def nBits (N : Nat) : Nat := clogAux N N

/-- `xor_constant = (0xAA * N) // 256` of the source. -/
def xorConstant (N : Nat) : Nat := (0xAA * N) / 256

/-- One loop iteration of `rc4_plus_prga` (src/tabu_logic.py lines 46-113):
advances `i` and `j`, swaps, derives the output indices `t`, `idx1`, `idx2`,
`t_prime`, `t_double`, performs the explicit `idx1 >= N or idx2 >= N` check
of the source (lines 76-80), and emits the output byte.  Every S-box read
goes through the bounds-checked `aget`. -/
def prgaStep (N : Nat) (st : PrgaState) : Option (PrgaState × Nat) := do
  let i := (st.i + 1) % N
  let si ← aget N st.S i
  let j := (st.j + si) % N
  let _ ← aget N st.S j
  let S1 := swapFn st.S i j
  let si2 ← aget N S1 i
  let sj2 ← aget N S1 j
  let t := (si2 + sj2) % N
  let shiftR := max 1 (nBits N / 3)
  let shiftL := max 1 (nBits N - shiftR)
  let idx1 := ((i >>> shiftR) ^^^ (j <<< shiftL)) % N
  let idx2 := ((i <<< shiftL) ^^^ (j >>> shiftR)) % N
  if N ≤ idx1 ∨ N ≤ idx2 then
    none
  else do
    let v1 ← aget N S1 idx1
    let v2 ← aget N S1 idx2
    let tPrimeVal := (v1 + v2) % N
    let tPrime := (tPrimeVal ^^^ xorConstant N) % N
    let sj3 ← aget N S1 j
    let tDouble := (j + sj3) % N
    let vt ← aget N S1 t
    let vtp ← aget N S1 tPrime
    let vtd ← aget N S1 tDouble
    let out :=
      if N < 256 then
        (((vt * (256 / N) + vtp * (256 / N)) &&& 0xFF) ^^^ vtd * (256 / N)) &&& 0xFF
      else
        (((vt + vtp) &&& 0xFF) ^^^ vtd) &&& 0xFF
    some ({ S := S1, i := i, j := j }, out)

/-- The `for step in range(length)` loop of `rc4_plus_prga`: runs `prgaStep`
`n` times, carrying the working state, and collects the output bytes. -/
def prgaRun (N : Nat) : Nat → PrgaState → Option (PrgaState × List Nat)
  | 0, st => some (st, [])
  | n + 1, st => do
    let p ← prgaStep N st
    let q ← prgaRun N n p.1
    some (q.1, p.2 :: q.2)

/-- `rc4_plus_prga(S, length, N)` of the source: works on a copy of the
caller's S-box starting from `i = j = 0`.  A negative `length` makes
`np.zeros(length, dtype=np.uint8)` raise before the loop, modelled by
`none`. -/
def rc4_plus_prga (S : Nat → Nat) (length : Int) (N : Nat) : Option (List Nat) :=
  if length < 0 then none
  else (prgaRun N length.toNat { S := S, i := 0, j := 0 }).map (fun p => p.2)

/-- One step of the reference PRGA exactly as the specification words it:
`i ← (i+1) mod N`, `j ← (j+S[i]) mod N`, swap, `t ← (S[i]+S[j]) mod N`,
`shiftR = max(1, ⌊b/3⌋)` and `shiftL = max(1, b − shiftR)` with
`b = ⌈log2 N⌉`, `idx1/idx2` from the shifted XOR formulas,
`t′ ← ((S[idx1]+S[idx2]) mod N) XOR ⌊0xAA·N/256⌋` (no further reduction),
`t″ ← (j+S[j]) mod N`, and the two output formulas for `N < 256`
(scaled sums of floors) and `N = 256`. -/
def specStep (N : Nat) (st : PrgaState) : PrgaState × Nat :=
  let i := (st.i + 1) % N
  let j := (st.j + st.S i) % N
  let S1 := swapFn st.S i j
  let t := (S1 i + S1 j) % N
  let shiftR := max 1 (nBits N / 3)
  let shiftL := max 1 (nBits N - shiftR)
  let idx1 := ((i >>> shiftR) ^^^ (j <<< shiftL)) % N
  let idx2 := ((i <<< shiftL) ^^^ (j >>> shiftR)) % N
  let tPrime := ((S1 idx1 + S1 idx2) % N) ^^^ xorConstant N
  let tDouble := (j + S1 j) % N
  let out :=
    if N < 256 then
      ((S1 t * 256 / N + S1 tPrime * 256 / N) &&& 0xFF) ^^^ (S1 tDouble * 256 / N &&& 0xFF)
    else
      ((S1 t + S1 tPrime) &&& 0xFF) ^^^ (S1 tDouble &&& 0xFF)
  ({ S := S1, i := i, j := j }, out)

/-- `L` steps of the reference PRGA of the specification. -/
def specRun (N : Nat) : Nat → PrgaState → PrgaState × List Nat
  | 0, st => (st, [])
  | n + 1, st =>
    let p := specStep N st
    let q := specRun N n p.1
    (q.1, p.2 :: q.2)

/-- The byte sequence the specification's reference PRGA assigns to an
initial S-box `S`: `L` steps from `i = j = 0` on a working copy. -/
def specPRGA (S : Nat → Nat) (L N : Nat) : List Nat :=
  (specRun N L { S := S, i := 0, j := 0 }).2

/-- Executable form of "`S` is a permutation of `[0, N)`": every value below
`N` and no two distinct arguments below `N` mapped to the same value. -/
def isPermOnB (N : Nat) (S : Nat → Nat) : Bool :=
  ((List.range N).all fun k => S k < N) &&
    ((List.range N).all fun k1 => (List.range N).all fun k2 =>
      S k1 ≠ S k2 ∨ k1 = k2)

/-- `S` restricted to `[0, N)` is a permutation of `[0, N)`. -/
def IsPermOn (N : Nat) (S : Nat → Nat) : Prop := isPermOnB N S = true

instance (N : Nat) (S : Nat → Nat) : Decidable (IsPermOn N S) :=
  inferInstanceAs (Decidable (isPermOnB N S = true))

/-- The three S-box sizes the repository accepts. -/
def ValidN (N : Nat) : Prop := N = 64 ∨ N = 128 ∨ N = 256

/-! ### Challenge generator and tabu cracker -/

/-- A candidate swap, a pair of S-box positions. -/
abbrev Move := Nat × Nat

/-- Failure taxonomy.  The explicit `N not in [64, 128, 256]` ValueError of
the source is the specification's ConfigurationError; numpy's ValueError
for a negative `np.zeros` length inside the engine is a distinct failure
with a different message. -/
inductive AttackError where
  | configError
  | keystreamError
deriving DecidableEq

/-- `np.sum(candidate_keystream == target_keystream)` over two equal-length
byte arrays. -/
def countMatches (a b : List Nat) : Nat :=
  (a.zip b).countP fun p => p.1 == p.2

/-- `generate_rc4_plus_keystream(N, length)` (src/tabu_logic.py lines
125-163): validates `N`, draws a random permutation of `np.arange(N)` —
the draw is modelled by passing the shuffled permutation `perm` explicitly
— and produces the pair of the permutation and its keystream.  A failure
of the engine (negative length) is re-raised. -/
def generate_rc4_plus_keystream (N : Nat) (length : Int) (perm : Nat → Nat) :
    Except AttackError ((Nat → Nat) × List Nat) :=
  if N = 64 ∨ N = 128 ∨ N = 256 then
    match rc4_plus_prga perm length N with
    | some ks => Except.ok (perm, ks)
    | none => Except.error AttackError.keystreamError
  else Except.error AttackError.configError

/-- `_generate_keystream` of `TabuCracker`: run the engine on a candidate
stored as a list (numpy array reads become `List.getD`).  For the validated
sizes and a `Nat` length the engine never fails (`prgaRun_eq_specRun`), so
the `[]` default of `getD` is dead code. -/
def keystreamOf (N len : Nat) (cand : List Nat) : List Nat :=
  (rc4_plus_prga (fun k => cand.getD k 0) (len : Int) N).getD []

/-- The attack state owned by `TabuCracker` (src/tabu_logic.py lines
175-254).  The precomputed `all_swaps` table and the RNG are not state:
the random draw of `_get_random_swaps` is an explicit input of `step`.
The `threading` members are outside the sequential state (see `RunState`
for the `run` method). -/
structure CrackerState where
  N : Nat
  target : List Nat
  keystreamLength : Nat
  targetState : Option (List Nat)
  totalSwaps : Nat
  swapsPerIteration : Nat
  tabuHorizon : Nat
  currentCandidate : List Nat
  bestCandidate : List Nat
  bestFitness : Nat
  tabuDeque : List Move
  tabuSet : List Move
  iteration : Nat
  currentFitness : Nat
  currentPredictedKeystream : List Nat
  bestPredictedKeystream : List Nat
  currentSwap : Option Move
deriving DecidableEq

/-- The state built by `TabuCracker.__init__` once `N` has been validated.
The random initial candidate (`np.random.shuffle`) is the explicit input
`initCand`.  The Python set `tabu_set` is modelled as a duplicate-free
list with membership semantics. -/
def initState (target : List Nat) (N : Nat) (targetState : Option (List Nat))
    (initCand : List Nat) : CrackerState :=
  { N := N
    target := target
    keystreamLength := target.length
    targetState := targetState
    totalSwaps := N * (N - 1) / 2
    swapsPerIteration := N * (N - 1) / 2 / 2
    tabuHorizon := N * (N - 1) / 2 / 2
    currentCandidate := initCand
    bestCandidate := initCand
    bestFitness := countMatches (keystreamOf N target.length initCand) target
    tabuDeque := []
    tabuSet := []
    iteration := 0
    currentFitness := countMatches (keystreamOf N target.length initCand) target
    currentPredictedKeystream := keystreamOf N target.length initCand
    bestPredictedKeystream := keystreamOf N target.length initCand
    currentSwap := none }

/-- `TabuCracker.__init__`: raises the `N must be 64, 128, or 256`
ValueError for an unsupported size, otherwise produces the attack state. -/
def mkCracker (target : List Nat) (N : Nat) (targetState : Option (List Nat))
    (initCand : List Nat) : Except AttackError CrackerState :=
  if N = 64 ∨ N = 128 ∨ N = 256 then
    Except.ok (initState target N targetState initCand)
  else Except.error AttackError.configError

/-- `_calculate_fitness`: exact byte matches between the candidate's
keystream and the target keystream. -/
def calcFitness (st : CrackerState) (cand : List Nat) : Nat :=
  countMatches (keystreamOf st.N st.keystreamLength cand) st.target

/-- `_apply_swap`: copy the candidate and swap two cells.  The bounds check
of the source precedes every call (the selection loop skips out-of-range
pairs), so the raise branch is unreachable at call sites. -/
def applySwap (cand : List Nat) (i j : Nat) : List Nat :=
  (cand.set i (cand.getD j 0)).set j (cand.getD i 0)

/-- Fitness of the neighbor a move generates from the current candidate. -/
def moveFit (st : CrackerState) (m : Move) : Nat :=
  calcFitness st (applySwap st.currentCandidate m.1 m.2)

/-- `tabu_set.add`: Python sets hold no duplicates. -/
def setAdd (s : List Move) (m : Move) : List Move :=
  if m ∈ s then s else m :: s

/-- `tabu_set.discard`: removes the element (all occurrences — a set holds
at most one). -/
def setDiscard (s : List Move) (m : Move) : List Move :=
  s.filter fun x => x ≠ m

/-- `deque(maxlen=H).append`: append on the right and drop from the left
once the length would exceed `H`. -/
def dequeAppend (H : Nat) (d : List Move) (m : Move) : List Move :=
  if H ≤ d.length then (d ++ [m]).drop (d.length + 1 - H) else d ++ [m]

/-- `_add_to_tabu` (src/tabu_logic.py lines 310-319): when the deque is at
capacity, discard the oldest entry from the membership set, then append the
move to the deque (evicting the oldest) and add it to the set. -/
def addToTabu (st : CrackerState) (m : Move) : CrackerState :=
  let set1 := if st.tabuHorizon ≤ st.tabuDeque.length then
      setDiscard st.tabuSet (st.tabuDeque.headD (0, 0))
    else st.tabuSet
  { st with tabuDeque := dequeAppend st.tabuHorizon st.tabuDeque m
            tabuSet := setAdd set1 m }

/-- The running best of the selection loop: `best_neighbor`, `best_move`
and `best_neighbor_fitness` move together; `none` models the initial
`best_neighbor = None` with its `-1` fitness sentinel
(see `accFitness`). -/
def accFitness (acc : Option (List Nat × Move × Nat)) : Int :=
  match acc with
  | none => -1
  | some (_, _, f) => (f : Int)

/-- The `for swap_idx, (i, j) in enumerate(swaps_to_check)` selection loop
of `step` (src/tabu_logic.py lines 343-367): skip out-of-range pairs, form
the neighbor from the *current* candidate, compute its fitness, and accept
it as the running best when it is not tabu or meets aspiration, and it
strictly beats the running best fitness. -/
def selectLoop (st : CrackerState) (acc : Option (List Nat × Move × Nat)) :
    List Move → Option (List Nat × Move × Nat)
  | [] => acc
  | (i, j) :: rest =>
    if st.N ≤ i ∨ st.N ≤ j then selectLoop st acc rest
    else
      selectLoop st
        (if ((i, j) ∉ st.tabuSet ∨
              st.bestFitness < calcFitness st (applySwap st.currentCandidate i j)) ∧
            accFitness acc < (calcFitness st (applySwap st.currentCandidate i j) : Int) then
          some (applySwap st.currentCandidate i j, (i, j),
            calcFitness st (applySwap st.currentCandidate i j))
        else acc) rest

/-- One `step` of the cracker (src/tabu_logic.py lines 327-418), with the
moves drawn by `_get_random_swaps` passed in as `sample`: run the selection
loop; if a move was found, install the neighbor as current candidate,
update the predicted keystream, promote it to best on strict improvement,
record the move in tabu memory; in all cases advance the iteration counter.
The chosen move (`move_accepted` of the returned stats) is the second
component. -/
def crackerStep (st : CrackerState) (sample : List Move) : CrackerState × Option Move :=
  match selectLoop st none sample with
  | none => ({ st with iteration := st.iteration + 1 }, none)
  | some (nb, mv, f) =>
    let ks := keystreamOf st.N st.keystreamLength nb
    let st1 := { st with currentCandidate := nb
                         currentFitness := f
                         currentSwap := some mv
                         currentPredictedKeystream := ks }
    let st2 := if st.bestFitness < f then
        { st1 with bestCandidate := nb
                   bestFitness := f
                   bestPredictedKeystream := ks }
      else st1
    let st3 := addToTabu st2 mv
    ({ st3 with iteration := st3.iteration + 1 }, some mv)

/-- A move the selection loop may accept: within bounds (else the loop
skips it) and either not tabu or meeting the aspiration criterion. -/
def Admissible (st : CrackerState) (m : Move) : Prop :=
  m.1 < st.N ∧ m.2 < st.N ∧ (m ∉ st.tabuSet ∨ st.bestFitness < moveFit st m)

instance (st : CrackerState) (m : Move) : Decidable (Admissible st m) :=
  inferInstanceAs (Decidable (m.1 < st.N ∧ m.2 < st.N ∧
    (m ∉ st.tabuSet ∨ st.bestFitness < moveFit st m)))

/-- Shape of a draw `_get_random_swaps` can produce: pairwise-distinct
moves from the `all_swaps` table (each `(i, j)` with `i < j < N`).  The
fixed size of the draw (`min(swaps_per_iteration, |all_swaps|)`) is not
constrained here. -/
def ValidSample (N : Nat) (sample : List Move) : Prop :=
  sample.Nodup ∧ ∀ m ∈ sample, m.1 < m.2 ∧ m.2 < N

instance (N : Nat) (sample : List Move) : Decidable (ValidSample N sample) :=
  inferInstanceAs (Decidable (sample.Nodup ∧ ∀ m ∈ sample, m.1 < m.2 ∧ m.2 < N))

/-- Invariant of the running best of the selection loop after the moves
`seen` have been processed: an empty accumulator means no admissible move
was seen; a filled one holds an admissible seen move, its neighbor and
fitness, every earlier admissible move has strictly smaller fitness, and
every later one at most this fitness. -/
def AccGood (st : CrackerState) (seen : List Move) :
    Option (List Nat × Move × Nat) → Prop
  | none => ∀ m ∈ seen, ¬ Admissible st m
  | some (nb, mv, f) =>
    Admissible st mv ∧ nb = applySwap st.currentCandidate mv.1 mv.2 ∧
      f = moveFit st mv ∧
      ∃ pre post, seen = pre ++ mv :: post ∧
        (∀ m ∈ pre, Admissible st m → moveFit st m < f) ∧
        (∀ m ∈ post, Admissible st m → moveFit st m ≤ f)

/-- States a `TabuCracker` can be in: freshly constructed, or the result of
a `step` on a reachable state with some drawn sample. -/
inductive Reachable : CrackerState → Prop where
  | init (target : List Nat) (N : Nat) (targetState : Option (List Nat))
      (initCand : List Nat) (st : CrackerState) :
      mkCracker target N targetState initCand = Except.ok st → Reachable st
  | step (st : CrackerState) (sample : List Move) : Reachable st →
      ValidSample st.N sample → Reachable (crackerStep st sample).1

/-- Repeated `step` calls with the given sequence of drawn samples. -/
def foldSteps (st : CrackerState) : List (List Move) → CrackerState
  | [] => st
  | s :: rest => foldSteps (crackerStep st s).1 rest

/-! ### A concrete attack trace (N = 64, one target byte)

`demoInit` is the cracker built on target keystream `[40]` with the
identity permutation as the randomly drawn initial candidate.  The PRGA
bytes of the four relevant candidates are 56 (identity), 236 (swap 0 1),
236 (swap 0 1 then 2 5) and 40 (swap 2 5), so the first three fitness
values are 0 and the trace `[moveA], [moveB], [moveA]` re-selects the tabu
move `moveA` through aspiration, duplicating it in the deque. -/

def demoTarget : List Nat := [40]

def demoC0 : List Nat := List.range 64

def demoInit : CrackerState := initState demoTarget 64 none demoC0

def moveA : Move := (0, 1)

def moveB : Move := (2, 5)

def stA2 : CrackerState := foldSteps demoInit [[moveA], [moveB]]

def stA3 : CrackerState := foldSteps demoInit [[moveA], [moveB], [moveA]]

/-- An injective supply of further moves: the `k`-th fresh move is
`(k % 32, 32 + k / 32)`, a swap with `i < 32 ≤ j < 64`, hence a valid
member of the move universe that differs from `moveA = (0, 1)` and
`moveB = (2, 5)`. -/
def freshMove (k : Nat) : Move := (k % 32, 32 + k / 32)

/-- 1005 pairwise-distinct fresh moves: enough to fill the tabu deque of
`demoInit` (capacity 1008) after the three-step prefix. -/
def freshA : List Move := (List.range 1005).map freshMove

/-- The move of the capacity-overflowing 1009th step. -/
def mLast : Move := freshMove 1005

/-- The state after filling the tabu deque to its capacity 1008. -/
def stFull : CrackerState := foldSteps stA3 (freshA.map fun m => [m])


/-! ### The `run` method -/

/-- The sequential effect of `TabuCracker.run` (src/tabu_logic.py lines
420-444): the method builds a worker thread and starts it; worker identity
is abstracted to a count of started workers.  The body contains no check
of `self.running` or `self.thread`. -/
structure RunState where
  running : Bool
  workersStarted : Nat
deriving DecidableEq

/-- Calling `run`: unconditionally starts another worker loop. -/
def runMethod (rs : RunState) : Except AttackError RunState :=
  Except.ok { rs with workersStarted := rs.workersStarted + 1 }

/-! ### Arithmetic helper lemmas -/

theorem testBit_255 (n : Nat) : (255 : Nat).testBit n = decide (n < 8) := by
  have h : (255 : Nat) = 2 ^ 8 - 1 := by norm_num
  rw [h, Nat.testBit_two_pow_sub_one]

/-- Masking to a byte distributes over XOR: re-masking an already masked
summand is harmless. -/
theorem mask_xor_mask (a b : Nat) :
    ((a &&& 255) ^^^ b) &&& 255 = (a &&& 255) ^^^ (b &&& 255) := by
  apply Nat.eq_of_testBit_eq
  intro n
  simp only [Nat.testBit_land, Nat.testBit_xor, testBit_255]
  cases h : decide (n < 8) <;> simp

theorem xor_lt_of_lt (N a b : Nat) (hN : ∃ k, N = 2 ^ k) (ha : a < N) (hb : b < N) :
    a ^^^ b < N := by
  obtain ⟨k, rfl⟩ := hN
  exact Nat.bitwise_lt ha hb

theorem validN_facts (N : Nat) (h : ValidN N) :
    0 < N ∧ N ∣ 256 ∧ (∃ k, N = 2 ^ k) ∧ xorConstant N < N := by
  rcases h with rfl | rfl | rfl
  · exact ⟨by norm_num, by norm_num, ⟨6, by norm_num⟩, by decide⟩
  · exact ⟨by norm_num, by norm_num, ⟨7, by norm_num⟩, by decide⟩
  · exact ⟨by norm_num, by norm_num, ⟨8, by norm_num⟩, by decide⟩

/-! ### The engine's loop body agrees with the specification's reference step -/

theorem prgaStep_eq_specStep (N : Nat) (h0 : 0 < N) (hdvd : N ∣ 256)
    (hpow : ∃ k, N = 2 ^ k) (hxc : xorConstant N < N) (st : PrgaState) :
    prgaStep N st = some (specStep N st) := by
  have hm : ∀ x : Nat, x % N < N := fun x => Nat.mod_lt x h0
  have hnle : ∀ x : Nat, ¬ (N ≤ x % N) := fun x => Nat.not_le.mpr (hm x)
  have hxlt : ∀ a : Nat, a % N ^^^ xorConstant N < N :=
    fun a => xor_lt_of_lt N _ _ hpow (hm a) hxc
  have hxor : ∀ a : Nat, (a % N ^^^ xorConstant N) % N = a % N ^^^ xorConstant N :=
    fun a => Nat.mod_eq_of_lt (hxlt a)
  unfold prgaStep specStep aget
  simp only [hm, hxor, hxlt, if_true, hnle, or_self, if_false, Option.bind_eq_bind,
    Option.some_bind]
  congr 1
  congr 1
  by_cases hlt : N < 256
  · simp only [if_pos hlt]
    rw [Nat.mul_div_assoc _ hdvd, Nat.mul_div_assoc _ hdvd, Nat.mul_div_assoc _ hdvd]
    exact mask_xor_mask _ _
  · simp only [if_neg hlt]
    exact mask_xor_mask _ _

theorem prgaRun_eq_specRun (N : Nat) (hN : ValidN N) :
    ∀ (n : Nat) (st : PrgaState), prgaRun N n st = some (specRun N n st) := by
  obtain ⟨h0, hdvd, hpow, hxc⟩ := validN_facts N hN
  intro n
  induction n with
  | zero => intro st; rfl
  | succ n ih =>
    intro st
    simp only [prgaRun, specRun, prgaStep_eq_specStep N h0 hdvd hpow hxc st,
      Option.bind_eq_bind, Option.some_bind, ih]

/-! ### Permutation facts -/

theorem isPermOn_iff (N : Nat) (S : Nat → Nat) :
    IsPermOn N S ↔ (∀ k, k < N → S k < N) ∧
      ∀ k1, k1 < N → ∀ k2, k2 < N → S k1 = S k2 → k1 = k2 := by
  unfold IsPermOn isPermOnB
  simp only [Bool.and_eq_true, List.all_eq_true, List.mem_range, decide_eq_true_eq]
  constructor
  · rintro ⟨h1, h2⟩
    refine ⟨h1, fun k1 hk1 k2 hk2 heq => ?_⟩
    rcases h2 k1 hk1 k2 hk2 with h | h
    · exact absurd heq h
    · exact h
  · rintro ⟨h1, h2⟩
    refine ⟨h1, fun k1 hk1 k2 hk2 => ?_⟩
    by_cases heq : S k1 = S k2
    · exact Or.inr (h2 k1 hk1 k2 hk2 heq)
    · exact Or.inl heq

/-- A pairwise swap preserves being a permutation of `[0, N)`. -/
theorem isPermOn_swapFn (N : Nat) (S : Nat → Nat) (i j : Nat) (hi : i < N) (hj : j < N)
    (h : IsPermOn N S) : IsPermOn N (swapFn S i j) := by
  rw [isPermOn_iff] at h ⊢
  obtain ⟨hb, hinj⟩ := h
  constructor
  · intro k hk
    unfold swapFn
    split_ifs
    · exact hb j hj
    · exact hb i hi
    · exact hb k hk
  · intro k1 hk1 k2 hk2 heq
    unfold swapFn at heq
    split_ifs at heq with h1 h2 h3 h4 h5 h6 h7 h8
    all_goals
      first
      | omega
      | (have h9 := hinj _ hj _ hi heq; omega)
      | (have h9 := hinj _ hi _ hj heq; omega)
      | (have h9 := hinj _ hj _ hk2 heq; omega)
      | (have h9 := hinj _ hi _ hk2 heq; omega)
      | (have h9 := hinj _ hk1 _ hj heq; omega)
      | (have h9 := hinj _ hk1 _ hi heq; omega)
      | (have h9 := hinj _ hk1 _ hk2 heq; omega)

theorem specStep_S (N : Nat) (st : PrgaState) :
    (specStep N st).1.S =
      swapFn st.S ((st.i + 1) % N) ((st.j + st.S ((st.i + 1) % N)) % N) := rfl

theorem isPermOn_specStep (N : Nat) (h0 : 0 < N) (st : PrgaState)
    (h : IsPermOn N st.S) : IsPermOn N (specStep N st).1.S := by
  rw [specStep_S]
  exact isPermOn_swapFn N st.S _ _ (Nat.mod_lt _ h0) (Nat.mod_lt _ h0) h

theorem isPermOn_specRun (N : Nat) (h0 : 0 < N) :
    ∀ (n : Nat) (st : PrgaState), IsPermOn N st.S → IsPermOn N (specRun N n st).1.S := by
  intro n
  induction n with
  | zero => intro st h; exact h
  | succ n ih => intro st h; exact ih (specStep N st).1 (isPermOn_specStep N h0 st h)

/-! ### Claim C1 -/

/-- C1: for every valid size `N ∈ {64,128,256}`, every permutation `S` of
`[0, N)` and every length `L ≥ 0`, the keystream engine `rc4_plus_prga`
returns exactly the byte sequence of the specification's reference PRGA
(`specPRGA`), carrying `i`, `j` and the working S-box copy across all `L`
steps without reset. -/
theorem prga_generate_matches_spec (N : Nat) (hN : ValidN N) (S : Nat → Nat)
    (_hS : IsPermOn N S) (L : Int) (hL : 0 ≤ L) :
    rc4_plus_prga S L N = some (specPRGA S L.toNat N) := by
  unfold rc4_plus_prga specPRGA
  rw [if_neg (by omega), prgaRun_eq_specRun N hN]
  rfl

/-- Witness for C1 at `N = 64`, `S = id`, `L = 3`. -/
theorem prga_generate_matches_spec_witness :
    rc4_plus_prga (fun k => k) 3 64 = some (specPRGA (fun k => k) 3 64) ∧
      specPRGA (fun k => k) 3 64 = [56, 232, 212] :=
  ⟨prga_generate_matches_spec 64 (Or.inl rfl) (fun k => k) (by decide) 3 (by decide),
    by decide⟩

/-! ### Claim C6 -/

/-- C6: for every valid `N` and permutation `S`, every derived index of every
step is within `[0, N)` — each access is bounds-checked inside `prgaStep`,
so success of `rc4_plus_prga` means no index was out of range — and the
engine fails exactly when `length` is negative. -/
theorem prga_generate_none_iff_negative_length (N : Nat) (hN : ValidN N)
    (S : Nat → Nat) (_hS : IsPermOn N S) (L : Int) :
    rc4_plus_prga S L N = none ↔ L < 0 := by
  unfold rc4_plus_prga
  by_cases hL : L < 0
  · simp [hL]
  · simp [hL, prgaRun_eq_specRun N hN]

/-- Witness for C6: a negative length fails, a non-negative one does not. -/
theorem prga_generate_none_iff_negative_length_witness :
    rc4_plus_prga (fun k => k) (-1) 64 = none ∧
      ¬ rc4_plus_prga (fun k => k) 2 64 = none := by
  constructor
  · exact (prga_generate_none_iff_negative_length 64 (Or.inl rfl) (fun k => k)
      (by decide) (-1)).mpr (by decide)
  · intro h
    exact absurd ((prga_generate_none_iff_negative_length 64 (Or.inl rfl) (fun k => k)
      (by decide) 2).mp h) (by decide)

/-! ### Claim C7 -/

/-- C7: the working S-box inside the engine remains a permutation of
`[0, N)` after any number of generation steps: only pairwise swaps are
applied to it. -/
theorem prga_sbox_stays_permutation (N : Nat) (hN : ValidN N) (n : Nat)
    (st : PrgaState) (pr : PrgaState × List Nat) (hS : IsPermOn N st.S)
    (h : prgaRun N n st = some pr) : IsPermOn N pr.1.S := by
  rw [prgaRun_eq_specRun N hN] at h
  have h2 := Option.some.inj h
  subst h2
  exact isPermOn_specRun N (validN_facts N hN).1 n st hS

/-- Witness for C7: after two steps at `N = 64` from the identity S-box the
working S-box is still a permutation. -/
theorem prga_sbox_stays_permutation_witness :
    IsPermOn 64 ((prgaRun 64 2 { S := fun k => k, i := 0, j := 0 }).getD
      ({ S := fun k => k, i := 0, j := 0 }, [])).1.S :=
  prga_sbox_stays_permutation 64 (Or.inl rfl) 2 { S := fun k => k, i := 0, j := 0 }
    ((prgaRun 64 2 { S := fun k => k, i := 0, j := 0 }).getD
      ({ S := fun k => k, i := 0, j := 0 }, [])) (by decide) rfl


/-! ### Selection loop invariant -/

theorem accGood_extend_notAdm (st : CrackerState) (seen : List Move)
    (acc : Option (List Nat × Move × Nat)) (m : Move) (hm : ¬ Admissible st m)
    (h : AccGood st seen acc) : AccGood st (seen ++ [m]) acc := by
  match acc with
  | none =>
    intro x hx
    rcases List.mem_append.mp hx with hx | hx
    · exact h x hx
    · rw [List.mem_singleton.mp hx]; exact hm
  | some (nb, mv, f) =>
    obtain ⟨h1, h2, h3, pre, post, hseen, hpre, hpost⟩ := h
    refine ⟨h1, h2, h3, pre, post ++ [m], ?_, hpre, ?_⟩
    · rw [hseen]; simp
    · intro x hx hadm
      rcases List.mem_append.mp hx with hx | hx
      · exact hpost x hx hadm
      · rw [List.mem_singleton.mp hx] at hadm; exact absurd hadm hm

theorem accGood_extend_le (st : CrackerState) (seen : List Move)
    (nb : List Nat) (mv : Move) (f : Nat) (m : Move) (hle : moveFit st m ≤ f)
    (h : AccGood st seen (some (nb, mv, f))) :
    AccGood st (seen ++ [m]) (some (nb, mv, f)) := by
  obtain ⟨h1, h2, h3, pre, post, hseen, hpre, hpost⟩ := h
  refine ⟨h1, h2, h3, pre, post ++ [m], ?_, hpre, ?_⟩
  · rw [hseen]; simp
  · intro x hx hadm
    rcases List.mem_append.mp hx with hx | hx
    · exact hpost x hx hadm
    · rw [List.mem_singleton.mp hx]; exact hle

theorem accGood_accept (st : CrackerState) (seen : List Move)
    (acc : Option (List Nat × Move × Nat)) (m : Move) (hadm : Admissible st m)
    (hgt : accFitness acc < (moveFit st m : Int)) (h : AccGood st seen acc) :
    AccGood st (seen ++ [m])
      (some (applySwap st.currentCandidate m.1 m.2, m, moveFit st m)) := by
  refine ⟨hadm, rfl, rfl, seen, [], rfl, ?_, by intro x hx; cases hx⟩
  intro x hx hxadm
  match acc, h with
  | none, h => exact absurd (h x hx) (by intro h2; exact h2 hxadm)
  | some (nb, mv, f), h =>
    obtain ⟨h1, h2, h3, pre, post, hseen, hpre, hpost⟩ := h
    have hflt : f < moveFit st m := by
      have hcast : (f : Int) < (moveFit st m : Int) := hgt
      exact_mod_cast hcast
    subst hseen
    rcases List.mem_append.mp hx with hx | hx
    · exact lt_trans (hpre x hx hxadm) hflt
    · rcases List.mem_cons.mp hx with rfl | hx
      · rw [h3] at hflt; exact hflt
      · exact lt_of_le_of_lt (hpost x hx hxadm) hflt

theorem selectLoop_accGood (st : CrackerState) :
    ∀ (ms : List Move) (acc : Option (List Nat × Move × Nat)) (seen : List Move),
      AccGood st seen acc → AccGood st (seen ++ ms) (selectLoop st acc ms) := by
  intro ms
  induction ms with
  | nil =>
    intro acc seen h
    simpa [selectLoop] using h
  | cons m rest ih =>
    intro acc seen h
    obtain ⟨i, j⟩ := m
    rw [selectLoop, List.append_cons]
    by_cases hb : st.N ≤ i ∨ st.N ≤ j
    · rw [if_pos hb]
      refine ih acc (seen ++ [(i, j)]) (accGood_extend_notAdm st seen acc (i, j) ?_ h)
      rintro ⟨h1, h2, _⟩
      omega
    · rw [if_neg hb]
      by_cases hc : ((i, j) ∉ st.tabuSet ∨
          st.bestFitness < calcFitness st (applySwap st.currentCandidate i j)) ∧
          accFitness acc < (calcFitness st (applySwap st.currentCandidate i j) : Int)
      · rw [if_pos hc]
        refine ih _ (seen ++ [(i, j)]) (accGood_accept st seen acc (i, j) ?_ hc.2 h)
        exact ⟨by omega, by omega, hc.1⟩
      · rw [if_neg hc]
        by_cases hadm : Admissible st (i, j)
        · match hacc : acc, h with
          | none, h =>
            exfalso
            apply hc
            refine ⟨hadm.2.2, ?_⟩
            show (-1 : Int) < _
            omega
          | some (nb, mv, f), h =>
            have hle : calcFitness st (applySwap st.currentCandidate i j) ≤ f := by
              by_contra hlt
              apply hc
              refine ⟨hadm.2.2, ?_⟩
              show (f : Int) < _
              exact_mod_cast Nat.lt_of_not_le hlt
            exact ih _ (seen ++ [(i, j)]) (accGood_extend_le st seen nb mv f (i, j) hle h)
        · exact ih acc (seen ++ [(i, j)]) (accGood_extend_notAdm st seen acc (i, j) hadm h)

theorem selectLoop_spec (st : CrackerState) (sample : List Move) :
    AccGood st sample (selectLoop st none sample) := by
  have h := selectLoop_accGood st sample none []
    (by intro m hm; exact absurd hm (List.not_mem_nil m))
  simpa using h

/-! ### Step characterization -/

theorem crackerStep_none_char (st : CrackerState) (sample : List Move)
    (heq : selectLoop st none sample = none) :
    crackerStep st sample = ({ st with iteration := st.iteration + 1 }, none) := by
  unfold crackerStep
  rw [heq]

theorem crackerStep_some_char (st : CrackerState) (sample : List Move)
    (nb : List Nat) (mv : Move) (f : Nat)
    (heq : selectLoop st none sample = some (nb, mv, f)) :
    (crackerStep st sample).2 = some mv ∧
    (crackerStep st sample).1.currentCandidate = nb ∧
    (crackerStep st sample).1.currentFitness = f ∧
    (crackerStep st sample).1.tabuDeque = dequeAppend st.tabuHorizon st.tabuDeque mv ∧
    (crackerStep st sample).1.tabuSet = setAdd
      (if st.tabuHorizon ≤ st.tabuDeque.length then
        setDiscard st.tabuSet (st.tabuDeque.headD (0, 0))
      else st.tabuSet) mv ∧
    (crackerStep st sample).1.N = st.N ∧
    (crackerStep st sample).1.tabuHorizon = st.tabuHorizon ∧
    (crackerStep st sample).1.target = st.target ∧
    (crackerStep st sample).1.keystreamLength = st.keystreamLength ∧
    (crackerStep st sample).1.iteration = st.iteration + 1 ∧
    (crackerStep st sample).1.bestFitness =
      (if st.bestFitness < f then f else st.bestFitness) ∧
    (crackerStep st sample).1.bestCandidate =
      (if st.bestFitness < f then nb else st.bestCandidate) := by
  unfold crackerStep
  rw [heq]
  dsimp only [addToTabu]
  refine ⟨?_, ?_, ?_, ?_, ?_, ?_, ?_, ?_, ?_, ?_, ?_, ?_⟩ <;>
    first
    | rfl
    | (split <;> rfl)


theorem crackerStep_some_inv (st st2 : CrackerState) (sample : List Move) (m : Move)
    (h : crackerStep st sample = (st2, some m)) :
    ∃ nb f, selectLoop st none sample = some (nb, m, f) := by
  cases heq : selectLoop st none sample with
  | none =>
    rw [crackerStep_none_char st sample heq] at h
    exact absurd (congrArg Prod.snd h) (by simp)
  | some trip =>
    obtain ⟨nb, mv, f⟩ := trip
    have hsnd := (crackerStep_some_char st sample nb mv f heq).1
    rw [h] at hsnd
    have hmv : m = mv := by simpa using hsnd
    subst hmv
    exact ⟨nb, f, rfl⟩

theorem mem_setAdd_self (s : List Move) (m : Move) : m ∈ setAdd s m := by
  unfold setAdd
  split_ifs with h
  · exact h
  · exact List.mem_cons_self m s

theorem mem_setAdd_iff (s : List Move) (m x : Move) :
    x ∈ setAdd s m ↔ x = m ∨ x ∈ s := by
  unfold setAdd
  split_ifs with h
  · constructor
    · exact fun hx => Or.inr hx
    · rintro (rfl | hx)
      · exact h
      · exact hx
  · exact List.mem_cons

theorem mem_setDiscard_iff (s : List Move) (m x : Move) :
    x ∈ setDiscard s m ↔ x ∈ s ∧ x ≠ m := by
  unfold setDiscard
  simp [List.mem_filter]

theorem mem_dequeAppend_self (H : Nat) (d : List Move) (m : Move) (hH : 0 < H) :
    m ∈ dequeAppend H d m := by
  unfold dequeAppend
  split_ifs with h
  · rw [List.drop_append_eq_append_drop]
    refine List.mem_append_right _ ?_
    have : d.length + 1 - H - d.length = 0 := by omega
    rw [this]
    exact List.mem_singleton.mpr rfl
  · exact List.mem_append_right _ (List.mem_singleton.mpr rfl)

theorem length_dequeAppend_le (H : Nat) (d : List Move) (m : Move)
    (hd : d.length ≤ H) : (dequeAppend H d m).length ≤ H := by
  unfold dequeAppend
  split_ifs with h
  · rw [List.length_drop, List.length_append]
    simp
    omega
  · rw [List.length_append]
    simp
    omega

/-! ### Claim C3 -/

/-- C3: whenever `step` chooses and applies a move that was in tabu memory
at the start of the iteration, the fitness of the neighbor produced by
that move strictly exceeds the best-ever fitness recorded before this
iteration (the aspiration criterion). -/
theorem step_tabu_move_needs_aspiration (st st2 : CrackerState) (sample : List Move)
    (m : Move) (h : crackerStep st sample = (st2, some m)) (htabu : m ∈ st.tabuSet) :
    st.bestFitness < calcFitness st (applySwap st.currentCandidate m.1 m.2) := by
  obtain ⟨nb, f, heq⟩ := crackerStep_some_inv st st2 sample m h
  have hg := selectLoop_spec st sample
  rw [heq] at hg
  obtain ⟨⟨hb1, hb2, h3⟩, _⟩ := hg
  rcases h3 with h3 | h3
  · exact absurd htabu h3
  · exact h3

/-- Witness for C3: the third step of the demo trace re-selects the tabu
move `(0, 1)` and indeed strictly improves on the best-ever fitness. -/
theorem step_tabu_move_needs_aspiration_witness :
    stA2.bestFitness < calcFitness stA2 (applySwap stA2.currentCandidate 0 1) :=
  step_tabu_move_needs_aspiration stA2 (crackerStep stA2 [moveA]).1 [moveA] moveA
    rfl (by decide)

/-! ### Claim C5 -/

/-- C5: a `step` in which no sampled move is admissible (every in-range
sampled move is tabu and none meets aspiration) leaves the candidate, the
fitness, the best-ever pair and the tabu memory unchanged, raises nothing,
and still increments the iteration counter by exactly one. -/
theorem step_no_admissible_is_noop (st : CrackerState) (sample : List Move)
    (h : ∀ m ∈ sample, ¬ Admissible st m) :
    crackerStep st sample = ({ st with iteration := st.iteration + 1 }, none) := by
  have hnone : selectLoop st none sample = none := by
    cases heq : selectLoop st none sample with
    | none => rfl
    | some trip =>
      obtain ⟨nb, mv, f⟩ := trip
      have hg := selectLoop_spec st sample
      rw [heq] at hg
      obtain ⟨hadm, _, _, pre, post, hseen, _, _⟩ := hg
      refine absurd hadm (h mv ?_)
      rw [hseen]
      exact List.mem_append_right _ (List.mem_cons_self _ _)
  exact crackerStep_none_char st sample hnone

/-- Witness for C5: a state whose tabu set blocks the only sampled move. -/
theorem step_no_admissible_is_noop_witness :
    crackerStep { demoInit with tabuDeque := [moveA], tabuSet := [moveA] } [moveA] =
      ({ { demoInit with tabuDeque := [moveA], tabuSet := [moveA] } with
          iteration :=
            { demoInit with tabuDeque := [moveA], tabuSet := [moveA] }.iteration + 1 },
        none) :=
  step_no_admissible_is_noop _ _ (by decide)


/-! ### Claim C4 -/

/-- C4: if at least one sampled move is admissible, `step` installs as
candidate the admissible neighbor of strictly highest fitness (each
neighbor formed by one swap on the same pre-iteration candidate), ties
kept by first occurrence in sampling order, with no condition comparing
to the pre-iteration candidate fitness; the candidate fitness becomes the
chosen neighbor's fitness and the chosen move is recorded in tabu memory. -/
theorem step_installs_best_admissible (st : CrackerState) (sample : List Move)
    (m0 : Move) (hm0 : m0 ∈ sample) (hadm0 : Admissible st m0)
    (hH : 0 < st.tabuHorizon) :
    ∃ mv, (crackerStep st sample).2 = some mv ∧ Admissible st mv ∧
      (crackerStep st sample).1.currentCandidate =
        applySwap st.currentCandidate mv.1 mv.2 ∧
      (crackerStep st sample).1.currentFitness = moveFit st mv ∧
      mv ∈ (crackerStep st sample).1.tabuDeque ∧
      mv ∈ (crackerStep st sample).1.tabuSet ∧
      (∀ m ∈ sample, Admissible st m → moveFit st m ≤ moveFit st mv) ∧
      ∃ pre post, sample = pre ++ mv :: post ∧
        ∀ m ∈ pre, Admissible st m → moveFit st m < moveFit st mv := by
  cases heq : selectLoop st none sample with
  | none =>
    exfalso
    have hg := selectLoop_spec st sample
    rw [heq] at hg
    exact hg m0 hm0 hadm0
  | some trip =>
    obtain ⟨nb, mv, f⟩ := trip
    have hg := selectLoop_spec st sample
    rw [heq] at hg
    obtain ⟨hadm, hnb, hf, pre, post, hseen, hpre, hpost⟩ := hg
    obtain ⟨hc1, hc2, hc3, hc4, hc5, _⟩ := crackerStep_some_char st sample nb mv f heq
    refine ⟨mv, hc1, hadm, ?_, ?_, ?_, ?_, ?_, pre, post, hseen, ?_⟩
    · rw [hc2, hnb]
    · rw [hc3, hf]
    · rw [hc4]; exact mem_dequeAppend_self st.tabuHorizon st.tabuDeque mv hH
    · rw [hc5]; exact mem_setAdd_self _ mv
    · intro m hm hadmm
      rw [hseen] at hm
      rcases List.mem_append.mp hm with hm | hm
      · rw [← hf]; exact le_of_lt (hpre m hm hadmm)
      · rcases List.mem_cons.mp hm with rfl | hm
        · exact le_refl _
        · rw [← hf]; exact hpost m hm hadmm
    · intro m hm hadmm
      rw [← hf]
      exact hpre m hm hadmm

/-- Witness for C4: the first demo step, sampling only `(0, 1)`. -/
theorem step_installs_best_admissible_witness :
    ∃ mv, (crackerStep demoInit [moveA]).2 = some mv ∧ Admissible demoInit mv ∧
      (crackerStep demoInit [moveA]).1.currentCandidate =
        applySwap demoInit.currentCandidate mv.1 mv.2 ∧
      (crackerStep demoInit [moveA]).1.currentFitness = moveFit demoInit mv ∧
      mv ∈ (crackerStep demoInit [moveA]).1.tabuDeque ∧
      mv ∈ (crackerStep demoInit [moveA]).1.tabuSet ∧
      (∀ m ∈ [moveA], Admissible demoInit m → moveFit demoInit m ≤ moveFit demoInit mv) ∧
      ∃ pre post, [moveA] = pre ++ mv :: post ∧
        ∀ m ∈ pre, Admissible demoInit m → moveFit demoInit m < moveFit demoInit mv :=
  step_installs_best_admissible demoInit [moveA] moveA (by decide) (by decide) (by decide)


/-! ### Step preservation and construction inversion -/

theorem crackerStep_N (st : CrackerState) (sample : List Move) :
    (crackerStep st sample).1.N = st.N := by
  cases heq : selectLoop st none sample with
  | none => rw [crackerStep_none_char st sample heq]
  | some trip =>
    obtain ⟨nb, mv, f⟩ := trip
    exact (crackerStep_some_char st sample nb mv f heq).2.2.2.2.2.1

theorem calcFitness_congr (st1 st2 : CrackerState) (hN : st1.N = st2.N)
    (hL : st1.keystreamLength = st2.keystreamLength) (hT : st1.target = st2.target)
    (c : List Nat) : calcFitness st1 c = calcFitness st2 c := by
  unfold calcFitness
  rw [hN, hL, hT]

theorem mkCracker_ok_inv (t : List Nat) (N : Nat) (ts : Option (List Nat))
    (c : List Nat) (st : CrackerState) (h : mkCracker t N ts c = Except.ok st) :
    st = initState t N ts c ∧ ValidN N := by
  unfold mkCracker at h
  split_ifs at h with hv
  exact ⟨(Except.ok.inj h).symm, hv⟩

theorem crackerStep_bestFitness_mono (st : CrackerState) (sample : List Move) :
    st.bestFitness ≤ (crackerStep st sample).1.bestFitness := by
  cases heq : selectLoop st none sample with
  | none =>
    rw [crackerStep_none_char st sample heq]
  | some trip =>
    obtain ⟨nb, mv, f⟩ := trip
    have hbf := (crackerStep_some_char st sample nb mv f heq).2.2.2.2.2.2.2.2.2.2.1
    rw [hbf]
    split_ifs with hc
    · exact le_of_lt hc
    · exact le_refl _

/-! ### Claim C10 -/

/-- C10: across construction and every sequence of steps, the recorded
best fitness always equals the byte-match fitness of the recorded best
candidate, and one further step can only keep or raise it (the pair is
replaced together, and only on strict improvement). -/
theorem best_fitness_monotone_and_tracked (st : CrackerState) (h : Reachable st) :
    calcFitness st st.bestCandidate = st.bestFitness ∧
      ∀ sample, st.bestFitness ≤ (crackerStep st sample).1.bestFitness := by
  refine ⟨?_, fun sample => crackerStep_bestFitness_mono st sample⟩
  induction h with
  | init t N ts c st hmk =>
    obtain ⟨rfl, _⟩ := mkCracker_ok_inv t N ts c st hmk
    rfl
  | step st sample hr hv ih =>
    cases heq : selectLoop st none sample with
    | none =>
      rw [crackerStep_none_char st sample heq]
      exact ih
    | some trip =>
      obtain ⟨nb, mv, f⟩ := trip
      obtain ⟨_, _, _, _, _, hN, _, hT, hL, _, hbf, hbc⟩ :=
        crackerStep_some_char st sample nb mv f heq
      rw [calcFitness_congr _ st hN hL hT, hbf, hbc]
      by_cases hc : st.bestFitness < f
      · rw [if_pos hc, if_pos hc]
        have hg := selectLoop_spec st sample
        rw [heq] at hg
        obtain ⟨_, hnb, hf, _⟩ := hg
        rw [hnb]
        exact hf.symm
      · rw [if_neg hc, if_neg hc]
        exact ih

/-- Witness for C10 at the freshly constructed demo cracker. -/
theorem best_fitness_monotone_and_tracked_witness :
    calcFitness demoInit demoInit.bestCandidate = demoInit.bestFitness ∧
      demoInit.bestFitness ≤ (crackerStep demoInit [moveA]).1.bestFitness := by
  have h := best_fitness_monotone_and_tracked demoInit
    (Reachable.init demoTarget 64 none demoC0 demoInit rfl)
  exact ⟨h.1, h.2 [moveA]⟩

/-! ### Tabu memory invariant (C2, amended part) -/

theorem reachable_tabu_invariant (st : CrackerState) (h : Reachable st) :
    ValidN st.N ∧ st.tabuHorizon = st.N * (st.N - 1) / 2 / 2 ∧
      st.tabuDeque.length ≤ st.tabuHorizon ∧
      ∀ x ∈ st.tabuSet, x ∈ st.tabuDeque := by
  induction h with
  | init t N ts c st hmk =>
    obtain ⟨rfl, hv⟩ := mkCracker_ok_inv t N ts c st hmk
    exact ⟨hv, rfl, by simp [initState], by intro x hx; cases hx⟩
  | step st sample hr hv ih =>
    obtain ⟨ihv, ihH, ihlen, ihsub⟩ := ih
    cases heq : selectLoop st none sample with
    | none =>
      rw [crackerStep_none_char st sample heq]
      exact ⟨ihv, ihH, ihlen, ihsub⟩
    | some trip =>
      obtain ⟨nb, mv, f⟩ := trip
      obtain ⟨_, _, _, hdq, hset, hN, hH, _⟩ := crackerStep_some_char st sample nb mv f heq
      refine ⟨by rw [hN]; exact ihv, by rw [hH, hN]; exact ihH, ?_, ?_⟩
      · rw [hdq, hH]
        exact length_dequeAppend_le _ _ _ ihlen
      · intro x hx
        rw [hset] at hx
        rw [hdq]
        rcases (mem_setAdd_iff _ _ _).mp hx with rfl | hx2
        · refine mem_dequeAppend_self _ _ _ ?_
          rw [ihH]
          rcases ihv with hNv | hNv | hNv <;> rw [hNv] <;> norm_num
        · by_cases hfull : st.tabuHorizon ≤ st.tabuDeque.length
          · rw [if_pos hfull] at hx2
            obtain ⟨hxs, hxne⟩ := (mem_setDiscard_iff _ _ _).mp hx2
            have hxd := ihsub x hxs
            unfold dequeAppend
            rw [if_pos hfull]
            cases hd : st.tabuDeque with
            | nil => rw [hd] at hxd; cases hxd
            | cons hh tt =>
              rw [hd] at hxd hxne
              have hx3 : x ∈ tt := by
                rcases List.mem_cons.mp hxd with rfl | h3
                · simp at hxne
                · exact h3
              have hlen : (hh :: tt).length = st.tabuHorizon := by
                rw [← hd]
                exact le_antisymm ihlen hfull
              have hamt : (hh :: tt).length + 1 - st.tabuHorizon = 1 := by omega
              rw [hamt]
              show x ∈ (hh :: (tt ++ [mv])).drop 1
              rw [List.drop_succ_cons, List.drop_zero]
              exact List.mem_append_left _ hx3
          · rw [if_neg hfull] at hx2
            unfold dequeAppend
            rw [if_neg hfull]
            exact List.mem_append_left _ (ihsub x hx2)

/-- C2 (amended): in every reachable state the tabu queue holds at most
`⌊(N(N−1)/2)/2⌋` moves, and every move the membership set reports is
present in the queue.  (The converse direction fails, see
`tabu_set_sync_counterexample`.) -/
theorem tabu_bound_and_subset (st : CrackerState) (h : Reachable st) :
    st.tabuDeque.length ≤ st.N * (st.N - 1) / 2 / 2 ∧
      ∀ m ∈ st.tabuSet, m ∈ st.tabuDeque := by
  obtain ⟨hv, hH, hlen, hsub⟩ := reachable_tabu_invariant st h
  rw [← hH]
  exact ⟨hlen, hsub⟩

/-- Witness for the amended C2 at the freshly constructed demo cracker. -/
theorem tabu_bound_and_subset_witness :
    demoInit.tabuDeque.length ≤ demoInit.N * (demoInit.N - 1) / 2 / 2 ∧
      ∀ m ∈ demoInit.tabuSet, m ∈ demoInit.tabuDeque :=
  tabu_bound_and_subset demoInit (Reachable.init demoTarget 64 none demoC0 demoInit rfl)


/-! ### The duplicated-move eviction trace (C2, counterexample part) -/

theorem selectLoop_singleton_fresh (st : CrackerState) (m : Move)
    (h1 : m.1 < st.N) (h2 : m.2 < st.N) (hns : m ∉ st.tabuSet) :
    selectLoop st none [m] = some (applySwap st.currentCandidate m.1 m.2, m,
      calcFitness st (applySwap st.currentCandidate m.1 m.2)) := by
  obtain ⟨i, j⟩ := m
  rw [selectLoop]
  rw [if_neg (by push_neg; exact ⟨by simpa using h1, by simpa using h2⟩)]
  rw [if_pos ⟨Or.inl hns, by show (-1 : Int) < _; omega⟩]
  rfl

theorem foldSteps_fresh :
    ∀ (ms : List Move) (st : CrackerState),
      (∀ m ∈ ms, m.1 < st.N ∧ m.2 < st.N) → ms.Nodup →
      (∀ m ∈ ms, m ∉ st.tabuSet) →
      st.tabuDeque.length + ms.length ≤ st.tabuHorizon →
      (foldSteps st (ms.map fun m => [m])).tabuDeque = st.tabuDeque ++ ms ∧
        (∀ x : Move, x ∈ (foldSteps st (ms.map fun m => [m])).tabuSet ↔
          x ∈ st.tabuSet ∨ x ∈ ms) ∧
        (foldSteps st (ms.map fun m => [m])).N = st.N ∧
        (foldSteps st (ms.map fun m => [m])).tabuHorizon = st.tabuHorizon := by
  intro ms
  induction ms with
  | nil =>
    intro st _ _ _ _
    exact ⟨by simp [foldSteps], by simp [foldSteps], rfl, rfl⟩
  | cons m rest ih =>
    intro st hbounds hnodup hfresh hroom
    have hm1 : m.1 < st.N := (hbounds m (List.mem_cons_self m rest)).1
    have hm2 : m.2 < st.N := (hbounds m (List.mem_cons_self m rest)).2
    have hmns : m ∉ st.tabuSet := hfresh m (List.mem_cons_self m rest)
    have hsel := selectLoop_singleton_fresh st m hm1 hm2 hmns
    obtain ⟨_, _, _, hdq, hset, hN, hH, _⟩ := crackerStep_some_char st [m] _ m _ hsel
    have hnofull : ¬ st.tabuHorizon ≤ st.tabuDeque.length := by
      simp only [List.length_cons] at hroom
      omega
    rw [if_neg hnofull] at hset
    have hdq2 : (crackerStep st [m]).1.tabuDeque = st.tabuDeque ++ [m] := by
      rw [hdq]
      unfold dequeAppend
      rw [if_neg hnofull]
    have hset2 : ∀ x : Move, x ∈ (crackerStep st [m]).1.tabuSet ↔
        x = m ∨ x ∈ st.tabuSet := by
      intro x
      rw [hset]
      exact mem_setAdd_iff _ _ _
    have hnodup2 : rest.Nodup := (List.nodup_cons.mp hnodup).2
    have hmnotrest : m ∉ rest := (List.nodup_cons.mp hnodup).1
    obtain ⟨c1, c2, c3, c4⟩ := ih (crackerStep st [m]).1
      (by intro m2 hm2r; rw [hN]; exact hbounds m2 (List.mem_cons_of_mem m hm2r))
      hnodup2
      (by
        intro m2 hm2r
        rw [hset2 m2]
        push_neg
        refine ⟨?_, hfresh m2 (List.mem_cons_of_mem m hm2r)⟩
        intro heq2
        rw [heq2] at hm2r
        exact hmnotrest hm2r)
      (by
        rw [hdq2, hH, List.length_append]
        simp only [List.length_cons] at hroom
        simp
        omega)
    refine ⟨?_, ?_, ?_, ?_⟩
    · show (foldSteps (crackerStep st [m]).1 (rest.map fun m => [m])).tabuDeque = _
      rw [c1, hdq2, List.append_assoc]
      rfl
    · intro x
      show x ∈ (foldSteps (crackerStep st [m]).1 (rest.map fun m => [m])).tabuSet ↔ _
      rw [c2 x, hset2 x]
      constructor
      · rintro ((rfl | hx) | hx)
        · exact Or.inr (List.mem_cons_self _ _)
        · exact Or.inl hx
        · exact Or.inr (List.mem_cons_of_mem _ hx)
      · rintro (hx | hx)
        · exact Or.inl (Or.inr hx)
        · rcases List.mem_cons.mp hx with rfl | hx
          · exact Or.inl (Or.inl rfl)
          · exact Or.inr hx
    · show (foldSteps (crackerStep st [m]).1 (rest.map fun m => [m])).N = st.N
      rw [c3, hN]
    · show (foldSteps (crackerStep st [m]).1 (rest.map fun m => [m])).tabuHorizon =
        st.tabuHorizon
      rw [c4, hH]

theorem freshMove_spec (k : Nat) (hk : k < 1024) :
    (freshMove k).1 < 32 ∧ 32 ≤ (freshMove k).2 ∧ (freshMove k).2 < 64 := by
  unfold freshMove
  refine ⟨?_, ?_, ?_⟩ <;> simp <;> omega

theorem freshMove_injective : Function.Injective freshMove := by
  intro a b h
  unfold freshMove at h
  obtain ⟨h1, h2⟩ := Prod.mk.injEq .. |>.mp h
  omega

theorem freshA_nodup : freshA.Nodup :=
  (List.nodup_range 1005).map freshMove_injective

theorem mem_freshA (x : Move) :
    x ∈ freshA ↔ ∃ k, k < 1005 ∧ freshMove k = x := by
  unfold freshA
  simp [List.mem_map, List.mem_range]

theorem mLast_not_mem_freshA : mLast ∉ freshA := by
  rw [mem_freshA]
  rintro ⟨k, hk, heq⟩
  have := freshMove_injective heq
  omega

theorem stA3_char :
    stA3.tabuDeque = [moveA, moveB, moveA] ∧ stA3.tabuSet = [moveB, moveA] ∧
      stA3.N = 64 ∧ stA3.tabuHorizon = 1008 := by decide

theorem stFull_char :
    stFull.tabuDeque = [moveA, moveB, moveA] ++ freshA ∧
      (∀ x : Move, x ∈ stFull.tabuSet ↔ x ∈ ([moveB, moveA] : List Move) ∨ x ∈ freshA) ∧
      stFull.N = 64 ∧ stFull.tabuHorizon = 1008 := by
  obtain ⟨hd3, hs3, hN3, hH3⟩ := stA3_char
  obtain ⟨c1, c2, c3, c4⟩ := foldSteps_fresh freshA stA3
    (by
      intro m hm
      rw [hN3]
      obtain ⟨k, hk, rfl⟩ := (mem_freshA m).mp hm
      obtain ⟨s1, s2, s3⟩ := freshMove_spec k (by omega)
      exact ⟨by omega, s3⟩)
    freshA_nodup
    (by
      intro m hm
      rw [hs3]
      obtain ⟨k, hk, rfl⟩ := (mem_freshA m).mp hm
      obtain ⟨s1, s2, s3⟩ := freshMove_spec k (by omega)
      intro hmem
      rcases List.mem_cons.mp hmem with heq | hmem2
      · have := congrArg Prod.snd heq
        simp [moveB] at this
        omega
      · rcases List.mem_cons.mp hmem2 with heq | hmem3
        · have := congrArg Prod.snd heq
          simp [moveA] at this
          omega
        · cases hmem3)
    (by
      rw [hd3, hH3]
      simp [freshA])
  rw [hd3] at c1
  rw [hH3] at c4
  rw [hN3] at c3
  refine ⟨c1, ?_, c3, c4⟩
  intro x
  show x ∈ (foldSteps stA3 (freshA.map fun m => [m])).tabuSet ↔ _
  rw [c2 x, hs3]

theorem stFull_deque_length : stFull.tabuDeque.length = 1008 := by
  rw [stFull_char.1]
  simp [freshA]

theorem mLast_spec : mLast.1 < 32 ∧ 32 ≤ mLast.2 ∧ mLast.2 < 64 :=
  freshMove_spec 1005 (by omega)

theorem mLast_not_tabu_stFull : mLast ∉ stFull.tabuSet := by
  rw [(stFull_char.2.1) mLast]
  rintro (hmem | hmem)
  · obtain ⟨s1, s2, s3⟩ := mLast_spec
    rcases List.mem_cons.mp hmem with heq | hmem2
    · have := congrArg Prod.snd heq
      simp [moveB] at this
      omega
    · rcases List.mem_cons.mp hmem2 with heq | hmem3
      · have := congrArg Prod.snd heq
        simp [moveA] at this
        omega
      · cases hmem3
  · exact mLast_not_mem_freshA hmem

theorem overflow_step_char :
    moveA ∈ (crackerStep stFull [mLast]).1.tabuDeque ∧
      moveA ∉ (crackerStep stFull [mLast]).1.tabuSet := by
  obtain ⟨hdF, hsF, hNF, hHF⟩ := stFull_char
  obtain ⟨s1, s2, s3⟩ := mLast_spec
  have hsel := selectLoop_singleton_fresh stFull mLast
    (by rw [hNF]; omega) (by rw [hNF]; omega) mLast_not_tabu_stFull
  obtain ⟨_, _, _, hdq, hset, _⟩ := crackerStep_some_char stFull [mLast] _ mLast _ hsel
  have hfull : stFull.tabuHorizon ≤ stFull.tabuDeque.length := by
    rw [stFull_deque_length, hHF]
  constructor
  · rw [hdq]
    unfold dequeAppend
    rw [if_pos hfull, stFull_deque_length, hHF]
    rw [hdF]
    have hshape : ([moveA, moveB, moveA] ++ freshA) ++ [mLast] =
        moveA :: ((moveB :: moveA :: freshA) ++ [mLast]) := by simp
    rw [hshape]
    have hamt : (1008 : Nat) + 1 - 1008 = 1 := by omega
    rw [hamt, List.drop_succ_cons, List.drop_zero]
    exact List.mem_append_left _ (by simp)
  · rw [hset, if_pos hfull]
    intro hmem
    rcases (mem_setAdd_iff _ _ _).mp hmem with heq | hmem2
    · have := congrArg Prod.snd heq
      simp [moveA, mLast, freshMove] at this
    · obtain ⟨hin, hne⟩ := (mem_setDiscard_iff _ _ _).mp hmem2
      apply hne
      rw [hdF]
      simp [moveA]

theorem reachable_foldSteps :
    ∀ (samples : List (List Move)) (st : CrackerState), Reachable st →
      (∀ s ∈ samples, ValidSample st.N s) → Reachable (foldSteps st samples) := by
  intro samples
  induction samples with
  | nil => intro st h _; exact h
  | cons s rest ih =>
    intro st h hv
    refine ih (crackerStep st s).1 (Reachable.step st s h (hv s (by simp))) ?_
    intro s2 hs2
    rw [crackerStep_N]
    exact hv s2 (List.mem_cons_of_mem s hs2)

theorem reachable_overflow : Reachable (crackerStep stFull [mLast]).1 := by
  have h0 : Reachable demoInit := Reachable.init demoTarget 64 none demoC0 demoInit rfl
  have h3 : Reachable stA3 := by
    refine reachable_foldSteps [[moveA], [moveB], [moveA]] demoInit h0 ?_
    intro s hs
    show ValidSample demoInit.N s
    rcases List.mem_cons.mp hs with rfl | hs
    · exact (by decide : ValidSample demoInit.N [moveA])
    · rcases List.mem_cons.mp hs with rfl | hs
      · exact (by decide : ValidSample demoInit.N [moveB])
      · rcases List.mem_cons.mp hs with rfl | hs
        · exact (by decide : ValidSample demoInit.N [moveA])
        · cases hs
  have hfull : Reachable stFull := by
    refine reachable_foldSteps (freshA.map fun m => [m]) stA3 h3 ?_
    intro s hs
    obtain ⟨m, hm, rfl⟩ := List.mem_map.mp hs
    obtain ⟨k, hk, rfl⟩ := (mem_freshA m).mp hm
    obtain ⟨s1, s2, s3⟩ := freshMove_spec k (by omega)
    rw [stA3_char.2.2.1]
    exact ⟨List.nodup_singleton _, by intro m2 hm2; rw [List.mem_singleton.mp hm2]; exact ⟨by omega, s3⟩⟩
  have hvLast : ValidSample stFull.N [mLast] := by
    obtain ⟨s1, s2, s3⟩ := mLast_spec
    rw [stFull_char.2.2.1]
    exact ⟨List.nodup_singleton _, by intro m2 hm2; rw [List.mem_singleton.mp hm2]; exact ⟨by omega, s3⟩⟩
  exact Reachable.step stFull [mLast] hfull hvLast

/-- Counterexample to C2 as stated: in the reachable state `stOver` the
move `(0, 1)` is still in the tabu queue (it was applied twice, once via
aspiration) but the membership set no longer contains it, because evicting
the older copy discarded it from the set. -/
theorem tabu_set_sync_counterexample :
    ¬ ∀ st : CrackerState, Reachable st →
      st.tabuDeque.length ≤ st.N * (st.N - 1) / 2 / 2 ∧
        ∀ m : Move, m ∈ st.tabuSet ↔ m ∈ st.tabuDeque := by
  intro hall
  obtain ⟨hmem, hnot⟩ := overflow_step_char
  obtain ⟨_, hsync⟩ := hall (crackerStep stFull [mLast]).1 reachable_overflow
  exact hnot ((hsync moveA).mpr hmem)


/-! ### Claim C8 -/

/-- C8: the challenge generator and the cracker constructor raise the
configuration error exactly when `N ∉ {64, 128, 256}`; the `Except.error`
result carries no target pair and no attack state. -/
theorem config_error_iff_invalid_N (N : Nat) (L : Int) (perm : Nat → Nat)
    (target : List Nat) (ts : Option (List Nat)) (initCand : List Nat) :
    (generate_rc4_plus_keystream N L perm = Except.error AttackError.configError ↔
      ¬ ValidN N) ∧
    (mkCracker target N ts initCand = Except.error AttackError.configError ↔
      ¬ ValidN N) := by
  by_cases hv : N = 64 ∨ N = 128 ∨ N = 256
  · have hgen : ¬ generate_rc4_plus_keystream N L perm =
        Except.error AttackError.configError := by
      unfold generate_rc4_plus_keystream
      rw [if_pos hv]
      cases h2 : rc4_plus_prga perm L N <;> simp
    have hmk : ¬ mkCracker target N ts initCand =
        Except.error AttackError.configError := by
      unfold mkCracker
      rw [if_pos hv]
      simp
    exact ⟨iff_of_false hgen (fun hn => hn hv), iff_of_false hmk (fun hn => hn hv)⟩
  · refine ⟨iff_of_true ?_ hv, iff_of_true ?_ hv⟩
    · unfold generate_rc4_plus_keystream
      rw [if_neg hv]
    · unfold mkCracker
      rw [if_neg hv]

/-! ### Claim C9 -/

/-- Counterexample to C9 as stated: calling `run` on an instance whose
worker is already active is not rejected — the method succeeds and starts
another worker loop on the same instance. -/
theorem run_while_running_counterexample :
    runMethod { running := true, workersStarted := 1 } =
      Except.ok { running := true, workersStarted := 2 } ∧
      ¬ ∃ e, runMethod { running := true, workersStarted := 1 } = Except.error e := by
  constructor
  · rfl
  · rintro ⟨e, he⟩
    simp [runMethod] at he

/-- C9 (amended): `run` contains no guard on `self.running` or
`self.thread`; every call, including one made while a run is active,
returns successfully after starting one more worker loop. -/
theorem run_always_starts_worker (rs : RunState) :
    runMethod rs = Except.ok { rs with workersStarted := rs.workersStarted + 1 } := rfl

end RC4Plus
